import Mathlib

/-!
Shallow embedding of the room store of `src/chat.go` (esote/chat).

The store is the Go map `rooms : map[string]room`, modelled as an
association list; time (`time.Time` / `time.Duration`) is modelled as
`Int` nanoseconds, with the Go zero `time.Time` modelled as `0`.
Each handler is embedded as a pure function from the store (and the
request data it reads) to the new store together with the outcome it
writes to the HTTP response.
-/

namespace Chat

/-- `msg` from chat.go: `s` is the stored (HTML-escaped) text, `t` the
formatted timestamp string. -/
structure msg where
  s : String
  t : String
deriving DecidableEq

/-- `room` from chat.go: message history (most-recent-first) and the
last-activity time (`last time.Time`, here `Int` nanoseconds). -/
structure room where
  msgs : List msg
  last : Int
deriving DecidableEq

/-- The zero-value `room{}` a Go map read yields for an absent key; also
the room inserted by `tryCreateRoom` (empty history, zero `last`). -/
def roomZero : room := ⟨[], 0⟩

/-- The Go map `rooms`, as an association list from name to room. -/
abbrev Store := List (String × room)

/-- chat.go `maxRoomCount = 50`. -/
def maxRoomCount : Nat := 50
/-- chat.go `maxMsgLen = 80`. -/
def maxMsgLen : Nat := 80
/-- chat.go `maxMsgsCount = 50`. -/
def maxMsgsCount : Nat := 50
/-- chat.go `maxNameLen = 5`. -/
def maxNameLen : Nat := 5
/-- chat.go `lifespan = 24 * time.Hour`, in nanoseconds. -/
def lifespan : Int := 24 * 60 * 60 * 1000000000

/-- Go map read `rooms[name]` as an option (the `, ok` form). -/
def lookupRoom (name : String) : Store → Option room
  | [] => none
  | kv :: t => if kv.1 = name then some kv.2 else lookupRoom name t

/-- Go map read `rooms[name]` (zero value when absent). -/
def getRoom (name : String) (s : Store) : room :=
  (lookupRoom name s).getD roomZero

/-- Go map write `rooms[name] = r`: replace the binding if present, else
add it. -/
def insertRoom (name : String) (r : room) : Store → Store
  | [] => [(name, r)]
  | kv :: t => if kv.1 = name then (name, r) :: t else kv :: insertRoom name r t

/-- `pruneRooms` from chat.go: delete every room whose last activity is
more than `lifespan` before `now`. -/
def pruneRooms (now : Int) : Store → Store
  | [] => []
  | kv :: t =>
    if now - kv.2.last > lifespan then pruneRooms now t
    else kv :: pruneRooms now t

/-- `tryCreateRoom` from chat.go: if `name` is absent, fail when the
store is full (`len(rooms)+1 > maxRoomCount`, reporting "too many
rooms"), otherwise insert an empty room; returns the new store and the
success flag. -/
def tryCreateRoom (name : String) (s : Store) : Store × Bool :=
  match lookupRoom name s with
  | some _ => (s, true)
  | none =>
    if s.length + 1 > maxRoomCount then (s, false)
    else (insertRoom name roomZero s, true)

/-- Go `unicode.IsSpace` restricted to the Latin-1 range (the characters
`strings.TrimSpace` can trim in the inputs considered here). -/
def isSpaceChar (c : Char) : Bool :=
  c = ' ' || c = '\t' || c = '\n' || c.toNat = 0xb || c.toNat = 0xc ||
    c = '\r' || c.toNat = 0x85 || c.toNat = 0xA0

/-- `strings.Replace(str, "\r", "", -1)` from the `post` handler. -/
def stripCR (str : String) : String :=
  String.mk (str.data.filter (fun c => !(c = '\r' : Bool)))

/-- `strings.TrimSpace` from the `post` handler. -/
def trimSpace (str : String) : String :=
  String.mk (((str.data.dropWhile isSpaceChar).reverse.dropWhile isSpaceChar).reverse)

/-- Go regexp `validMsg = ^[[:print:]]+$`: one char, ASCII printable. -/
def isPrintChar (c : Char) : Bool :=
  0x20 ≤ c.toNat && c.toNat ≤ 0x7e

/-- `validMsg.MatchString str`: nonempty, all chars ASCII printable. -/
def validMsgCheck (str : String) : Bool :=
  !str.data.isEmpty && str.data.all isPrintChar

/-- One character of Go `html.EscapeString`. -/
def escapeChar (c : Char) : List Char :=
  if c = '&' then "&amp;".data
  else if c = '\'' then "&#39;".data
  else if c = '<' then "&lt;".data
  else if c = '>' then "&gt;".data
  else if c = '"' then "&#34;".data
  else [c]

/-- Go `html.EscapeString` from the `post` handler. -/
def escapeString (str : String) : String :=
  String.mk (str.data.map escapeChar).flatten

/-- Models `time.Time.Format("2006-01-02 15:04")`: some rendering of the
timestamp into a display string (the exact format is presentation). -/
def fmtTime (t : Int) : String := toString t

/-- `printChat` from chat.go: render the history of `rooms[name]` as
`<pre>` followed by one `"%s: %s\n\n"` line per message, then `</pre>`.
No escaping happens here; `m.s` is emitted verbatim. -/
def printChat (name : String) (s : Store) : String :=
  "<pre>" ++
    String.join ((getRoom name s).msgs.map (fun m => m.t ++ ": " ++ m.s ++ "\n\n")) ++
    "</pre>"

/-- The HTTP response a handler writes, as far as the store layer is
concerned: an `http.Error(w, text, code)` or an
`http.Redirect(w, r, target, code)`. -/
inductive Response where
  | httpErr (text : String) (code : Nat)
  | redirect (target : String) (code : Nat)
deriving DecidableEq

/-- Outcome of the `post` handler, distinguishing the branch taken. -/
inductive PostResult where
  | errTooLong
  | errBadMsg
  | emptyRedirect
  | errCapacity
  | duplicate
  | accepted
deriving DecidableEq

/-- The HTTP response `post` writes for each outcome (chat.go lines
181-228: `http.StatusBadRequest` = 400, `http.StatusSeeOther` = 303).
A suppressed duplicate and an accepted append are answered identically. -/
def responseOf (name : String) : PostResult → Response
  | .errTooLong => .httpErr "msg too long" 400
  | .errBadMsg => .httpErr "bad msg" 400
  | .emptyRedirect => .redirect name 303
  | .errCapacity => .httpErr "too many rooms" 400
  | .duplicate => .redirect name 303
  | .accepted => .redirect name 303

/-- The duplicate scan in `post`: does any stored message have exactly
the text `str`? -/
def hasDup (str : String) : List msg → Bool
  | [] => false
  | m :: t => if m.s = str then true else hasDup str t

/-- Lines 216-224 of chat.go for an accepted message: prepend the new
message (text `str`, timestamp from `now`) to `old`, then truncate to
`M` entries when the bound is exceeded. -/
def newHistory (M : Nat) (str : String) (now : Int) (old : List msg) : List msg :=
  let msgs1 : List msg := ⟨str, fmtTime now⟩ :: old
  if msgs1.length > M then msgs1.take M else msgs1

/-- The `post` handler of chat.go, with the history cap `M` as an
explicit parameter (`post` below instantiates it with `maxMsgsCount`,
the value of the source constant). Takes the room name, the raw form
value `msg`, the current time, and the store. -/
def postAux (M : Nat) (name str0 : String) (now : Int) (s : Store) :
    Store × PostResult :=
  if str0.utf8ByteSize > maxMsgLen then (s, .errTooLong)
  else
    let str1 := trimSpace (stripCR str0)
    if !validMsgCheck str1 then (s, .errBadMsg)
    else if str1 = "" then (s, .emptyRedirect)
    else
      let str := escapeString str1
      let tc := tryCreateRoom name s
      if !tc.2 then (s, .errCapacity)
      else
        let rm := getRoom name tc.1
        if hasDup str rm.msgs then (tc.1, .duplicate)
        else (insertRoom name ⟨newHistory M str now rm.msgs, now⟩ tc.1, .accepted)

/-- The `post` handler of chat.go. -/
def post (name str0 : String) (now : Int) (s : Store) : Store × PostResult :=
  postAux maxMsgsCount name str0 now s

/-- The `patch` handler of chat.go: sets headers and calls `printChat`;
it never writes to `rooms`, so the store passes through unchanged. -/
def patch (name : String) (s : Store) : Store × String :=
  (s, printChat name s)

/-- The store effect of the `get` handler of chat.go: `pruneRooms` then
`tryCreateRoom` (the rest of the handler only renders). -/
def get (name : String) (now : Int) (s : Store) : Store × Bool :=
  tryCreateRoom name (pruneRooms now s)

/-- One store operation, for stating store-wide invariants over whole
executions. -/
inductive Op where
  | opGet (name : String) (now : Int)
  | opPatch (name : String)
  | opPost (name str0 : String) (now : Int)
  | opSweep (now : Int)

/-- The store after one operation. -/
def stepOp (s : Store) : Op → Store
  | .opGet name now => (get name now s).1
  | .opPatch name => (patch name s).1
  | .opPost name str0 now => (post name str0 now s).1
  | .opSweep now => pruneRooms now s

/-- The store after a sequence of operations. -/
def runOps (ops : List Op) (s : Store) : Store :=
  ops.foldl stepOp s

/-- Invariant I1: the history of every room has length at most `maxMsgsCount`. -/
def storeInv (s : Store) : Prop :=
  ∀ kv ∈ s, (room.msgs kv.2).length ≤ maxMsgsCount

/-! ### Association-list lemmas for the store -/

theorem lookup_insert (name : String) (r : room) (s : Store) :
    lookupRoom name (insertRoom name r s) = some r := by
  induction s with
  | nil => simp [insertRoom, lookupRoom]
  | cons kv t ih =>
    by_cases h : kv.1 = name
    · simp [insertRoom, lookupRoom, h]
    · simp [insertRoom, lookupRoom, h, ih]

theorem lookup_insert_ne {n name : String} (r : room) (s : Store) (h : n ≠ name) :
    lookupRoom n (insertRoom name r s) = lookupRoom n s := by
  have h' : ¬ name = n := fun hh => h hh.symm
  induction s with
  | nil => simp [insertRoom, lookupRoom, h']
  | cons kv t ih =>
    by_cases hk : kv.1 = name
    · simp [insertRoom, lookupRoom, hk, h']
    · by_cases hn : kv.1 = n <;> simp [insertRoom, lookupRoom, hk, hn, h, ih]

theorem mem_insert {kv : String × room} {name : String} {r : room} {s : Store}
    (h : kv ∈ insertRoom name r s) : kv = (name, r) ∨ kv ∈ s := by
  induction s with
  | nil => simpa [insertRoom] using h
  | cons kv0 t ih =>
    by_cases hk : kv0.1 = name
    · simp only [insertRoom, if_pos hk, List.mem_cons] at h
      rcases h with h | h
      · exact Or.inl h
      · exact Or.inr (List.mem_cons_of_mem _ h)
    · simp only [insertRoom, if_neg hk, List.mem_cons] at h
      rcases h with h | h
      · exact Or.inr (h ▸ List.mem_cons_self _ _)
      · rcases ih h with h | h
        · exact Or.inl h
        · exact Or.inr (List.mem_cons_of_mem _ h)

theorem lookup_eq_none_iff {n : String} {s : Store} :
    lookupRoom n s = none ↔ ∀ kv ∈ s, kv.1 ≠ n := by
  induction s with
  | nil => simp [lookupRoom]
  | cons kv t ih =>
    by_cases h : kv.1 = n <;> simp [lookupRoom, h, ih]

theorem lookup_mem {n : String} {r : room} {s : Store}
    (h : lookupRoom n s = some r) : (n, r) ∈ s := by
  induction s with
  | nil => simp [lookupRoom] at h
  | cons kv t ih =>
    obtain ⟨a, b⟩ := kv
    by_cases hk : a = n
    · subst hk
      simp [lookupRoom] at h
      subst h
      exact List.mem_cons_self _ _
    · simp [lookupRoom, hk] at h
      exact List.mem_cons_of_mem _ (ih h)

theorem mem_prune {kv : String × room} {now : Int} {s : Store}
    (h : kv ∈ pruneRooms now s) : kv ∈ s := by
  induction s with
  | nil => simp [pruneRooms] at h
  | cons kv0 t ih =>
    by_cases hp : now - kv0.2.last > lifespan
    · simp only [pruneRooms, if_pos hp] at h
      exact List.mem_cons_of_mem _ (ih h)
    · simp only [pruneRooms, if_neg hp, List.mem_cons] at h
      rcases h with h | h
      · exact h ▸ List.mem_cons_self _ _
      · exact List.mem_cons_of_mem _ (ih h)

theorem lookup_prune_none {n : String} {now : Int} {s : Store}
    (h : ∀ kv ∈ s, kv.1 = n → now - kv.2.last > lifespan) :
    lookupRoom n (pruneRooms now s) = none := by
  induction s with
  | nil => simp [pruneRooms, lookupRoom]
  | cons kv t ih =>
    have iht := ih (fun kv' hkv' => h kv' (List.mem_cons_of_mem _ hkv'))
    by_cases hp : now - kv.2.last > lifespan
    · simpa [pruneRooms, if_pos hp] using iht
    · have hk : ¬ kv.1 = n := fun hk => hp (h kv (List.mem_cons_self _ _) hk)
      simpa [pruneRooms, if_neg hp, lookupRoom, hk] using iht

theorem lookup_prune_of_nodup {n : String} (now : Int) {s : Store} {r : room}
    (hnd : (s.map Prod.fst).Nodup) (h : lookupRoom n s = some r) :
    lookupRoom n (pruneRooms now s) =
      if now - r.last > lifespan then none else some r := by
  induction s with
  | nil => simp [lookupRoom] at h
  | cons kv t ih =>
    rw [List.map_cons, List.nodup_cons] at hnd
    by_cases hk : kv.1 = n
    · simp only [lookupRoom, if_pos hk] at h
      obtain rfl : kv.2 = r := Option.some.inj h
      by_cases hp : now - kv.2.last > lifespan
      · rw [pruneRooms, if_pos hp, if_pos hp]
        refine lookup_prune_none (fun kv' hkv' hkv'n => absurd ?_ hnd.1)
        rw [← hk] at hkv'n
        exact hkv'n ▸ List.mem_map_of_mem Prod.fst hkv'
      · rw [pruneRooms, if_neg hp, if_neg hp, lookupRoom, if_pos hk]
    · simp only [lookupRoom, if_neg hk] at h
      have iht := ih hnd.2 h
      by_cases hp : now - kv.2.last > lifespan
      · rw [pruneRooms, if_pos hp]; exact iht
      · rw [pruneRooms, if_neg hp, lookupRoom, if_neg hk]; exact iht

/-! ### Invariant I1 is preserved by every operation -/

theorem storeInv_insert {s : Store} {r : room} {name : String}
    (hs : storeInv s) (hr : r.msgs.length ≤ maxMsgsCount) :
    storeInv (insertRoom name r s) := by
  intro kv hkv
  rcases mem_insert hkv with rfl | hkv
  · exact hr
  · exact hs kv hkv

theorem storeInv_prune {s : Store} {now : Int} (hs : storeInv s) :
    storeInv (pruneRooms now s) :=
  fun kv hkv => hs kv (mem_prune hkv)

theorem storeInv_tryCreate {s : Store} (name : String) (hs : storeInv s) :
    storeInv (tryCreateRoom name s).1 := by
  cases h : lookupRoom name s with
  | some r => simp only [tryCreateRoom, h]; exact hs
  | none =>
    by_cases hc : s.length + 1 > maxRoomCount
    · simp only [tryCreateRoom, h, if_pos hc]; exact hs
    · simp only [tryCreateRoom, h, if_neg hc]
      exact storeInv_insert hs (by simp [roomZero])

theorem newHistory_length_le (M : Nat) (str : String) (now : Int) (old : List msg) :
    (newHistory M str now old).length ≤ M := by
  simp only [newHistory, List.length_cons]
  split
  next h => simp only [List.length_take, List.length_cons]; omega
  next h => simp only [List.length_cons]; omega

theorem storeInv_postAux {s : Store} (name str0 : String) (now : Int)
    (hs : storeInv s) : storeInv (postAux maxMsgsCount name str0 now s).1 := by
  simp only [postAux]
  split
  · exact hs
  split
  · exact hs
  split
  · exact hs
  split
  · exact hs
  split
  · exact storeInv_tryCreate name hs
  exact storeInv_insert (storeInv_tryCreate name hs) (newHistory_length_le _ _ _ _)

theorem storeInv_step {s : Store} (o : Op) (hs : storeInv s) :
    storeInv (stepOp s o) := by
  cases o with
  | opGet name now =>
    simp only [stepOp, get]
    exact storeInv_tryCreate name (storeInv_prune hs)
  | opPatch name => exact hs
  | opPost name str0 now =>
    simp only [stepOp, post]
    exact storeInv_postAux name str0 now hs
  | opSweep now => exact storeInv_prune hs

/-! ### Branch analysis of the `post` handler -/

theorem postAux_accepted_elim {M : Nat} {name str0 : String} {now : Int} {s : Store}
    (h : (postAux M name str0 now s).2 = PostResult.accepted) :
    str0.utf8ByteSize ≤ maxMsgLen ∧
    validMsgCheck (trimSpace (stripCR str0)) = true ∧
    trimSpace (stripCR str0) ≠ "" ∧
    (tryCreateRoom name s).2 = true ∧
    hasDup (escapeString (trimSpace (stripCR str0)))
      (getRoom name (tryCreateRoom name s).1).msgs = false ∧
    (postAux M name str0 now s).1 =
      insertRoom name
        ⟨newHistory M (escapeString (trimSpace (stripCR str0))) now
            (getRoom name (tryCreateRoom name s).1).msgs, now⟩
        (tryCreateRoom name s).1 := by
  simp only [postAux] at h ⊢
  split at h
  · simp at h
  split at h
  · simp at h
  split at h
  · simp at h
  split at h
  · simp at h
  split at h
  · simp at h
  next h1 h2 h3 h4 h5 =>
    refine ⟨Nat.le_of_not_lt h1, ?_, h3, ?_, ?_, ?_⟩
    · simpa using h2
    · simpa using h4
    · simpa using h5
    · simp only [if_neg h1, if_neg h2, if_neg h3, if_neg h4, if_neg h5]

theorem postAux_duplicate_elim {M : Nat} {name str0 : String} {now : Int} {s : Store}
    (h : (postAux M name str0 now s).2 = PostResult.duplicate) :
    hasDup (escapeString (trimSpace (stripCR str0)))
      (getRoom name (tryCreateRoom name s).1).msgs = true ∧
    (postAux M name str0 now s).1 = (tryCreateRoom name s).1 := by
  simp only [postAux] at h ⊢
  split at h
  · simp at h
  split at h
  · simp at h
  split at h
  · simp at h
  split at h
  · simp at h
  split at h
  next h1 h2 h3 h4 h5 =>
    refine ⟨h5, ?_⟩
    simp only [if_neg h1, if_neg h2, if_neg h3, if_neg h4, if_pos h5]
  · simp at h

theorem tryCreate_eq_self_of_hasDup {name str : String} {s : Store}
    (h : hasDup str (getRoom name (tryCreateRoom name s).1).msgs = true) :
    (tryCreateRoom name s).1 = s := by
  cases hl : lookupRoom name s with
  | some r => simp [tryCreateRoom, hl]
  | none =>
    by_cases hc : s.length + 1 > maxRoomCount
    · simp [tryCreateRoom, hl, hc]
    · exfalso
      simp [tryCreateRoom, hl, hc, getRoom, lookup_insert, roomZero, hasDup] at h

/-- `newHistory` is exactly "prepend newest, truncate tail to the cap". -/
theorem newHistory_eq_take (M : Nat) (str : String) (now : Int) (old : List msg) :
    newHistory M str now old = ((⟨str, fmtTime now⟩ : msg) :: old).take M := by
  simp only [newHistory]
  split
  · rfl
  next h => exact (List.take_of_length_le (Nat.le_of_not_lt h)).symm

/-! ### The claims -/

/-- C1: For every starting store satisfying invariant I1 and every sequence of
operations (appends included), the invariant `len(history) ≤ maxMsgsCount`
holds for every room in the store after every operation. -/
theorem c1_history_length_bounded (s : Store) (ops : List Op) (hs : storeInv s) :
    storeInv (runOps ops s) := by
  induction ops generalizing s with
  | nil => exact hs
  | cons o t ih =>
    simp only [runOps, List.foldl_cons] at *
    exact ih _ (storeInv_step o hs)

theorem c1_history_length_bounded_witness :
    storeInv (runOps [Op.opPost "ab" "hi" 5, Op.opPost "ab" "yo" 6] []) :=
  c1_history_length_bounded [] [Op.opPost "ab" "hi" 5, Op.opPost "ab" "yo" 6]
    (by simp [storeInv])

/-- C2: When the store holds `maxRoomCount` distinct rooms, create-or-get for
an absent name fails (`ok = false`) without mutating the store, and `post` for
such a name answers the capacity error, also without mutating; create-or-get
for any present name still succeeds with the store unchanged. -/
theorem c2_capacity_rejection (s : Store) (name : String)
    (_hnd : (s.map Prod.fst).Nodup) (hfull : s.length = maxRoomCount) :
    (lookupRoom name s = none →
      tryCreateRoom name s = (s, false) ∧
      ∀ (raw : String) (now : Int), raw.utf8ByteSize ≤ maxMsgLen →
        validMsgCheck (trimSpace (stripCR raw)) = true →
        post name raw now s = (s, PostResult.errCapacity)) ∧
    (∀ r : room, lookupRoom name s = some r → tryCreateRoom name s = (s, true)) := by
  constructor
  · intro hnone
    have hc : s.length + 1 > maxRoomCount := by rw [hfull]; decide
    have htc : tryCreateRoom name s = (s, false) := by
      simp only [tryCreateRoom, hnone]
      rw [if_pos hc]
    refine ⟨htc, fun raw now hlen hvalid => ?_⟩
    have hne : ¬ trimSpace (stripCR raw) = "" := by
      intro he
      rw [he] at hvalid
      simp [validMsgCheck] at hvalid
    simp only [post, postAux]
    rw [if_neg (by omega), if_neg (by simp [hvalid]), if_neg hne]
    simp [htc]
  · intro r hr
    simp [tryCreateRoom, hr]

/-- Concrete store of `maxRoomCount` distinct one-character rooms, used to
exercise the capacity bound. -/
def fullStore : Store :=
  (List.range maxRoomCount).map (fun i => (String.mk [Char.ofNat (48 + i)], roomZero))

theorem c2_capacity_rejection_witness :
    tryCreateRoom "zz" fullStore = (fullStore, false) ∧
    post "zz" "hi" 5 fullStore = (fullStore, PostResult.errCapacity) ∧
    tryCreateRoom "0" fullStore = (fullStore, true) := by
  refine ⟨?_, ?_, ?_⟩
  · exact ((c2_capacity_rejection fullStore "zz" (by decide) (by decide)).1
      (by decide)).1
  · exact ((c2_capacity_rejection fullStore "zz" (by decide) (by decide)).1
      (by decide)).2 "hi" 5 (by decide) (by decide)
  · exact (c2_capacity_rejection fullStore "0" (by decide) (by decide)).2
      roomZero (by decide)

/-- C5: After the sweep `pruneRooms now`, a room whose last activity is
strictly older than `lifespan` relative to `now` is absent from the store,
and a room within `lifespan` of `now` is still present, unchanged. -/
theorem c5_sweep_eviction (s : Store) (now : Int) (name : String) (r : room)
    (hnd : (s.map Prod.fst).Nodup) (h : lookupRoom name s = some r) :
    (now - r.last > lifespan → lookupRoom name (pruneRooms now s) = none) ∧
    (now - r.last ≤ lifespan → lookupRoom name (pruneRooms now s) = some r) := by
  have hpr := lookup_prune_of_nodup now hnd h
  constructor
  · intro hp; rw [hpr, if_pos hp]
  · intro hp; rw [hpr, if_neg (by omega)]

theorem c5_sweep_eviction_witness :
    ((lifespan + 1) - roomZero.last > lifespan →
      lookupRoom "ab" (pruneRooms (lifespan + 1) [("ab", roomZero)]) = none) ∧
    ((lifespan + 1) - roomZero.last ≤ lifespan →
      lookupRoom "ab" (pruneRooms (lifespan + 1) [("ab", roomZero)]) = some roomZero) :=
  c5_sweep_eviction [("ab", roomZero)] (lifespan + 1) "ab" roomZero
    (by decide) (by decide)

/-- C6: The read operation (`patch`, backed by `printChat`) is non-mutating —
the store passes through unchanged — and idempotent: reading twice with no
intervening writes renders the same history both times. -/
theorem c6_read_idempotent (name : String) (s : Store) :
    (patch name s).1 = s ∧
    (patch name ((patch name s).1)).2 = (patch name s).2 :=
  ⟨rfl, rfl⟩

/-- C7: Reading a name absent from the store renders `<pre></pre>`, output
identical to reading any existing room whose history is empty. -/
theorem c7_absent_reads_empty (name : String) (s : Store)
    (h : lookupRoom name s = none) :
    printChat name s = "<pre></pre>" ∧
    (∀ (n2 : String) (s2 : Store) (r : room),
      lookupRoom n2 s2 = some r → r.msgs = [] →
      printChat n2 s2 = printChat name s) := by
  have h1 : printChat name s = "<pre></pre>" := by
    simp only [printChat, getRoom, h, Option.getD, roomZero, List.map_nil]
    rfl
  refine ⟨h1, fun n2 s2 r h2 hm => ?_⟩
  rw [h1]
  simp only [printChat, getRoom, h2, Option.getD, hm, List.map_nil]
  rfl

theorem c7_absent_reads_empty_witness :
    printChat "ab" ([] : Store) = "<pre></pre>" ∧
    printChat "cd" [("cd", roomZero)] = printChat "ab" ([] : Store) := by
  refine ⟨(c7_absent_reads_empty "ab" [] (by decide)).1, ?_⟩
  exact (c7_absent_reads_empty "ab" [] (by decide)).2 "cd" [("cd", roomZero)]
    roomZero (by decide) rfl

/-- C9: A room created by `tryCreateRoom` and never appended to carries the
zero last-activity time; a read (`patch`) leaves the store unchanged, and any
sweep whose `now` is more than `lifespan` past the zero time removes the room,
read or no read in between. -/
theorem c9_fresh_room_evicted (name : String) (s : Store)
    (habs : lookupRoom name s = none)
    (hcap : ¬ s.length + 1 > maxRoomCount) :
    lookupRoom name (tryCreateRoom name s).1 = some roomZero ∧
    (patch name (tryCreateRoom name s).1).1 = (tryCreateRoom name s).1 ∧
    (∀ now : Int, now - roomZero.last > lifespan →
      lookupRoom name
        (pruneRooms now (patch name (tryCreateRoom name s).1).1) = none) := by
  have htc : (tryCreateRoom name s).1 = insertRoom name roomZero s := by
    simp [tryCreateRoom, habs, hcap]
  refine ⟨by rw [htc]; exact lookup_insert _ _ _, rfl, fun now hnow => ?_⟩
  show lookupRoom name (pruneRooms now (tryCreateRoom name s).1) = none
  rw [htc]
  refine lookup_prune_none (fun kv hkv hk => ?_)
  rcases mem_insert hkv with rfl | hkv
  · exact hnow
  · exact absurd hk (lookup_eq_none_iff.mp habs kv hkv)

theorem c9_fresh_room_evicted_witness :
    lookupRoom "ab" (tryCreateRoom "ab" []).1 = some roomZero ∧
    (patch "ab" (tryCreateRoom "ab" []).1).1 = (tryCreateRoom "ab" []).1 ∧
    (∀ now : Int, now - roomZero.last > lifespan →
      lookupRoom "ab"
        (pruneRooms now (patch "ab" (tryCreateRoom "ab" []).1).1) = none) :=
  c9_fresh_room_evicted "ab" [] (by decide) (by decide)

/-- C10: A duplicate-suppressed append leaves the whole store — every room,
history and last-activity field alike — exactly as it was. -/
theorem c10_duplicate_no_mutation (name str0 : String) (now : Int) (s : Store)
    (h : (post name str0 now s).2 = PostResult.duplicate) :
    (post name str0 now s).1 = s := by
  have h' : (postAux maxMsgsCount name str0 now s).2 = PostResult.duplicate := h
  obtain ⟨hdup, heq⟩ := postAux_duplicate_elim h'
  calc (post name str0 now s).1
      = (postAux maxMsgsCount name str0 now s).1 := rfl
    _ = (tryCreateRoom name s).1 := heq
    _ = s := tryCreate_eq_self_of_hasDup hdup

/-- Create-or-get never changes the content a later map read sees: the room
resolved after `tryCreateRoom` has the same history as the (zero-extended)
room read before it. -/
theorem getRoom_tryCreate_msgs_eq {name : String} {s : Store} :
    (getRoom name (tryCreateRoom name s).1).msgs = (getRoom name s).msgs := by
  cases hl : lookupRoom name s with
  | some r => simp [tryCreateRoom, hl]
  | none =>
    by_cases hc : s.length + 1 > maxRoomCount
    · simp [tryCreateRoom, hl, hc]
    · simp [tryCreateRoom, hl, hc, getRoom, lookup_insert, roomZero]

theorem newHistory_nil (str : String) (now : Int) :
    newHistory maxMsgsCount str now [] = [⟨str, fmtTime now⟩] := by
  simp [newHistory, maxMsgsCount]

/-- A `post` whose (normalized, escaped) text already occurs in the history
of the resolved room is answered as a suppressed duplicate, with no mutation. -/
theorem post_duplicate_of_found {name raw : String} {now : Int} {s1 : Store}
    {r : room}
    (hlen : raw.utf8ByteSize ≤ maxMsgLen)
    (hvalid : validMsgCheck (trimSpace (stripCR raw)) = true)
    (hne : ¬ trimSpace (stripCR raw) = "")
    (hl : lookupRoom name s1 = some r)
    (hfound : hasDup (escapeString (trimSpace (stripCR raw))) r.msgs = true) :
    post name raw now s1 = (s1, PostResult.duplicate) := by
  have htc : tryCreateRoom name s1 = (s1, true) := by simp [tryCreateRoom, hl]
  have hg : getRoom name (tryCreateRoom name s1).1 = r := by
    simp [htc, getRoom, hl]
  simp only [post, postAux]
  rw [if_neg (by omega), if_neg (by simp [hvalid]), if_neg hne,
      if_neg (by simp [htc]), if_pos (by rw [hg]; exact hfound), htc]

/-- C3: On a room whose history is empty, appending a text and then the very
same text again leaves the history at length 1; the second append is the
suppressed-duplicate outcome, mutates nothing, and is answered by the same
HTTP response as an accepted append. -/
theorem c3_duplicate_suppressed (s : Store) (name raw : String) (now1 now2 : Int)
    (h0 : (getRoom name s).msgs = [])
    (h1 : (post name raw now1 s).2 = PostResult.accepted) :
    (getRoom name (post name raw now1 s).1).msgs.length = 1 ∧
    (post name raw now2 (post name raw now1 s).1).2 = PostResult.duplicate ∧
    (post name raw now2 (post name raw now1 s).1).1 = (post name raw now1 s).1 ∧
    responseOf name PostResult.duplicate = responseOf name PostResult.accepted := by
  have h1' : (postAux maxMsgsCount name raw now1 s).2 = PostResult.accepted := h1
  obtain ⟨hlen, hvalid, hne, htc, hdup, heq⟩ := postAux_accepted_elim h1'
  have hrm : (getRoom name (tryCreateRoom name s).1).msgs = [] := by
    rw [getRoom_tryCreate_msgs_eq, h0]
  have hs1 : (post name raw now1 s).1 =
      insertRoom name
        ⟨[⟨escapeString (trimSpace (stripCR raw)), fmtTime now1⟩], now1⟩
        (tryCreateRoom name s).1 := by
    show (postAux maxMsgsCount name raw now1 s).1 = _
    rw [heq, hrm, newHistory_nil]
  have hl1 : lookupRoom name (post name raw now1 s).1 =
      some ⟨[⟨escapeString (trimSpace (stripCR raw)), fmtTime now1⟩], now1⟩ := by
    rw [hs1]; exact lookup_insert _ _ _
  have hg1 : getRoom name (post name raw now1 s).1 =
      ⟨[⟨escapeString (trimSpace (stripCR raw)), fmtTime now1⟩], now1⟩ := by
    simp only [getRoom, hl1, Option.getD]
  have hsecond : post name raw now2 (post name raw now1 s).1 =
      ((post name raw now1 s).1, PostResult.duplicate) :=
    post_duplicate_of_found hlen hvalid hne hl1 (by simp [hasDup])
  refine ⟨by rw [hg1]; rfl, by rw [hsecond], by rw [hsecond], rfl⟩

theorem c3_duplicate_suppressed_witness :
    (getRoom "ab" (post "ab" "hi" 5 []).1).msgs.length = 1 ∧
    (post "ab" "hi" 7 (post "ab" "hi" 5 []).1).2 = PostResult.duplicate ∧
    (post "ab" "hi" 7 (post "ab" "hi" 5 []).1).1 = (post "ab" "hi" 5 []).1 ∧
    responseOf "ab" PostResult.duplicate = responseOf "ab" PostResult.accepted :=
  c3_duplicate_suppressed [] "ab" "hi" 5 7 (by decide) (by decide)

/-- C4: An accepted append stores exactly "prepend the new message at index 0,
then truncate the tail to the cap"; concretely, "a" then "b" on an empty room
yields history ["b", "a"], and with the cap at 2, "a", "b", "c" yields
["c", "b"]. -/
theorem c4_prepend_truncate :
    (∀ (M : Nat) (name str0 : String) (now : Int) (s : Store),
      (postAux M name str0 now s).2 = PostResult.accepted →
      (getRoom name (postAux M name str0 now s).1).msgs =
        ((⟨escapeString (trimSpace (stripCR str0)), fmtTime now⟩ : msg) ::
          (getRoom name (tryCreateRoom name s).1).msgs).take M) ∧
    (getRoom "r" (post "r" "b" 2 (post "r" "a" 1 []).1).1).msgs.map msg.s =
      ["b", "a"] ∧
    (getRoom "r" (postAux 2 "r" "c" 3
        (postAux 2 "r" "b" 2 (postAux 2 "r" "a" 1 []).1).1).1).msgs.map msg.s =
      ["c", "b"] := by
  refine ⟨?_, by decide, by decide⟩
  intro M name str0 now s h
  obtain ⟨-, -, -, -, -, heq⟩ := postAux_accepted_elim h
  rw [heq]
  simp only [getRoom, lookup_insert, Option.getD]
  exact newHistory_eq_take M _ now _

theorem c4_prepend_truncate_witness :
    (getRoom "r" (postAux 2 "r" "c" 3
        (postAux 2 "r" "b" 2 (postAux 2 "r" "a" 1 []).1).1).1).msgs =
      ((⟨escapeString (trimSpace (stripCR "c")), fmtTime 3⟩ : msg) ::
        (getRoom "r" (tryCreateRoom "r"
          (postAux 2 "r" "b" 2 (postAux 2 "r" "a" 1 []).1).1).1).msgs).take 2 :=
  c4_prepend_truncate.1 2 "r" "c" 3
    (postAux 2 "r" "b" 2 (postAux 2 "r" "a" 1 []).1).1 (by decide)

/-- C8: The text stored by an accepted append is the HTML-escape of the
CR-stripped, trimmed input — escaping happens exactly once, at store
insertion — and rendering emits the stored text verbatim: on a previously
empty room the rendered page is literally `<pre>` + timestamp + `: ` + the
once-escaped text + the blank line + `</pre>`. -/
theorem c8_escape_once (name raw : String) (now : Int) (s : Store)
    (h : (post name raw now s).2 = PostResult.accepted) :
    ((getRoom name (post name raw now s).1).msgs.head?).map msg.s =
      some (escapeString (trimSpace (stripCR raw))) ∧
    ((getRoom name s).msgs = [] →
      printChat name (post name raw now s).1 =
        "<pre>" ++
          (fmtTime now ++ ": " ++ escapeString (trimSpace (stripCR raw)) ++ "\n\n") ++
          "</pre>") := by
  have h' : (postAux maxMsgsCount name raw now s).2 = PostResult.accepted := h
  obtain ⟨hlen, hvalid, hne, htc, hdup, heq⟩ := postAux_accepted_elim h'
  have hget : getRoom name (post name raw now s).1 =
      ⟨newHistory maxMsgsCount (escapeString (trimSpace (stripCR raw))) now
          (getRoom name (tryCreateRoom name s).1).msgs, now⟩ := by
    show getRoom name (postAux maxMsgsCount name raw now s).1 = _
    rw [heq]
    simp only [getRoom, lookup_insert, Option.getD]
  constructor
  · rw [hget, newHistory_eq_take,
      show maxMsgsCount = 49 + 1 from rfl, List.take_succ_cons]
    rfl
  · intro h0
    have hrm : (getRoom name (tryCreateRoom name s).1).msgs = [] := by
      rw [getRoom_tryCreate_msgs_eq, h0]
    rw [printChat, hget, hrm, newHistory_nil]
    simp [String.join]

theorem c8_escape_once_witness :
    ((getRoom "ab" (post "ab" " a<b " 3 []).1).msgs.head?).map msg.s =
      some (escapeString (trimSpace (stripCR " a<b "))) ∧
    ((getRoom "ab" ([] : Store)).msgs = [] →
      printChat "ab" (post "ab" " a<b " 3 []).1 =
        "<pre>" ++
          (fmtTime 3 ++ ": " ++ escapeString (trimSpace (stripCR " a<b ")) ++ "\n\n") ++
          "</pre>") :=
  c8_escape_once "ab" " a<b " 3 [] (by decide)

theorem c10_duplicate_no_mutation_witness :
    (post "ab" "hi" 7 (post "ab" "hi" 5 []).1).1 = (post "ab" "hi" 5 []).1 :=
  c10_duplicate_no_mutation "ab" "hi" 7 (post "ab" "hi" 5 []).1 (by decide)

end Chat
